import Mathlib

/-!
Verification of the planning and filtering core of the cAGENTS document
generator (crates/cagents-core): the rule data model, the context-matching
predicate, root/file filtering, the glob-to-directory output planner, and
the merge step.  Rust strings are modelled as `String`, paths as `String`
(root filter, file filter) or as lists of path components (the planner's
filesystem walk), `serde_json::Value` as `JVal`, `HashMap` as association
lists, and `anyhow::Result` as `Except String`.
-/

namespace Cagents

/-- `serde_json::Value` as far as `When::all_variables` inspects it: it only
distinguishes strings, arrays, and everything else (numbers, booleans, null,
objects), so all other forms collapse to `other`. -/
inductive JVal where
  | str (s : String)
  | arr (vs : List JVal)
  | other

/-- `serde_json::Value::as_str`: `Some` exactly on strings. -/
def JVal.as_str : JVal → Option String
  | .str s => some s
  | _ => none

/-- `model.rs` `When`: legacy fields `env`/`role`/`language`/`target` plus the
`#[serde(flatten)]` map of arbitrary variables (modelled as an association
list, standing for `HashMap<String, serde_json::Value>`). -/
structure When where
  env : Option (List String)
  role : Option (List String)
  language : Option (List String)
  target : Option (List String)
  -- the Rust field is named `variables`; that word is a keyword here
  vars : List (String × JVal)

/-- `When::legacy`: build a clause from the four legacy fields only. -/
def When.legacy (env role language target : Option (List String)) : When :=
  ⟨env, role, language, target, []⟩

/-- The four legacy dimension names, skipped when walking the arbitrary
variables in `When::all_variables` to avoid duplicates. -/
def legacyKey (k : String) : Bool :=
  k = "env" || k = "role" || k = "language" || k = "target"

/-- `When::all_variables`: the unified requirement view.  Legacy fields are
inserted first when present; then each arbitrary variable is added unless its
key is a legacy name, converting a JSON array to the list of its string
elements (dropped entirely when that list is empty) and a JSON string to a
singleton list, ignoring every other JSON form. -/
def When.all_variables (w : When) : List (String × List String) :=
  (match w.env with | some vs => [("env", vs)] | none => []) ++
  (match w.role with | some vs => [("role", vs)] | none => []) ++
  (match w.language with | some vs => [("language", vs)] | none => []) ++
  (match w.target with | some vs => [("target", vs)] | none => []) ++
  w.vars.filterMap (fun kv =>
    if legacyKey kv.1 then none
    else
      match kv.2 with
      | JVal.arr vs =>
        let strings := vs.filterMap JVal.as_str
        if strings.isEmpty then none else some (kv.1, strings)
      | JVal.str s => some (kv.1, [s])
      | JVal.other => none)

/-- `planner.rs` `BuildContext`: legacy fields plus the unified `variables`
map (an association list standing for `HashMap<String, String>`). -/
structure BuildContext where
  env : Option String
  role : Option String
  language : Option String
  target : Option String
  -- the Rust field is named `variables`; that word is a keyword here
  vars : List (String × String)

/-- `BuildContext::new`: store the supplied legacy values in the variables
map under their dimension names. -/
def BuildContext.new (env role language : Option String) : BuildContext :=
  { env := env, role := role, language := language, target := none
    vars :=
      (match env with | some v => [("env", v)] | none => []) ++
      (match role with | some v => [("role", v)] | none => []) ++
      (match language with | some v => [("language", v)] | none => []) }

/-- `BuildContext::from_variables`: derive the legacy fields by lookup. -/
def BuildContext.from_variables (vars : List (String × String)) : BuildContext :=
  { env := vars.lookup "env", role := vars.lookup "role"
    language := vars.lookup "language", target := vars.lookup "target"
    vars := vars }

/-- `BuildContext::matches_when`: a missing clause always matches; otherwise
every requirement pair from `When::all_variables` must find its dimension in
the context's variables with a value contained in the accepted list. -/
def BuildContext.matches_when (self : BuildContext) (w : Option When) : Bool :=
  match w with
  | none => true
  | some w =>
    w.all_variables.all (fun req =>
      match self.vars.lookup req.1 with
      | some ctx_val => req.2.contains ctx_val
      | none => false)

/-- Token of a compiled glob pattern.  Model of the external `globset` crate
(`Glob::new` with default options, where a path separator is not literal, so
`*` and `?` may match `/`): literal characters, `?`, a `*` run (`anySeq`),
a character class, and the three recursive forms a whole `**` component
compiles to — `recPre` for `**/` (the empty string, or any string ending in
`/`; `anyToSep` is its non-empty half, used only by the matcher) and
`recSuf` for a trailing `/**` (the empty string, or `/` followed by
anything).  Brace alternation, classes containing `/`, and the class corner
cases (leading `]`, `[^...]`) are outside the modelled subset. -/
inductive GlobToken where
  | lit (c : Char)
  | anyChar
  | anySeq
  | anyToSep
  | recPre
  | recSuf
  | cls (neg : Bool) (ranges : List (Char × Char))

/-- Model of `globset::Glob::new` pattern compilation as one pass over the
pattern's characters.  The first argument is the parser state: `none` outside
a character class, `some (neg, acc)` inside one with the ranges collected so
far.  A pattern ending inside a class is rejected (`none`), as `Glob::new`
rejects an unclosed class. -/
def parseTokens : Option (Bool × List (Char × Char)) → List Char → Option (List GlobToken)
  | none, [] => some []
  | none, '*' :: rest => (parseTokens none rest).map (fun ts => GlobToken.anySeq :: ts)
  | none, '?' :: rest => (parseTokens none rest).map (fun ts => GlobToken.anyChar :: ts)
  | none, '[' :: '!' :: rest => parseTokens (some (true, [])) rest
  | none, '[' :: rest => parseTokens (some (false, [])) rest
  | none, c :: rest => (parseTokens none rest).map (fun ts => GlobToken.lit c :: ts)
  | some _, [] => none
  | some (neg, acc), ']' :: rest =>
    (parseTokens none rest).map (fun ts => GlobToken.cls neg acc.reverse :: ts)
  | some (neg, acc), a :: '-' :: b :: rest =>
    if b = ']' then parseTokens (some (neg, ('-', '-') :: (a, a) :: acc)) (b :: rest)
    else parseTokens (some (neg, (a, b) :: acc)) rest
  | some (neg, acc), a :: rest => parseTokens (some (neg, (a, a) :: acc)) rest

/-- Rust `str::split('/')`: split a character list at every `/`, keeping
empty pieces (so `""` yields `[""]` and a leading `/` yields a leading empty
piece), on the characters of the string. -/
def splitOnSlash : List Char → List (List Char)
  | [] => [[]]
  | c :: cs =>
    if c = '/' then [] :: splitOnSlash cs
    else
      match splitOnSlash cs with
      | g :: gs => (c :: g) :: gs
      | [] => [[c]]

/-- Compile a pattern's `/`-separated components.  A whole `**` component is
recursive: bare `**` matches everything, `**/` compiles to `recPre`, and a
trailing `/**` to `recSuf`; any other component is compiled by
`parseTokens`, with a literal `/` between adjacent components. -/
def parseComponents : List (List Char) → Option (List GlobToken)
  | [] => some []
  | comp :: rest =>
    if comp = ['*', '*'] then
      match rest with
      | [] => some [GlobToken.anySeq]
      | _ :: _ => (parseComponents rest).map (fun ts => GlobToken.recPre :: ts)
    else
      match parseTokens none comp with
      | none => none
      | some ts1 =>
        match rest with
        | [] => some ts1
        | [c2] =>
          if c2 = ['*', '*'] then some (ts1 ++ [GlobToken.recSuf])
          else (parseTokens none c2).map (fun ts => ts1 ++ GlobToken.lit '/' :: ts)
        | _ :: _ :: _ => (parseComponents rest).map (fun ts => ts1 ++ GlobToken.lit '/' :: ts)

/-- `Glob::new` on a pattern string. -/
def parseGlob (s : String) : Option (List GlobToken) :=
  parseComponents (splitOnSlash s.data)

/-- Character-class membership test. -/
def clsMem (neg : Bool) (ranges : List (Char × Char)) (d : Char) : Bool :=
  let inR := ranges.any (fun r => r.1 ≤ d && d ≤ r.2)
  if neg then !inR else inR

/-- Does a pattern match the empty character sequence, i.e. is every token a
nullable star form (`anySeq`, `recPre`, `recSuf`)? -/
def allSeq : List GlobToken → Bool
  | [] => true
  | GlobToken.anySeq :: ts => allSeq ts
  | GlobToken.recPre :: ts => allSeq ts
  | GlobToken.recSuf :: ts => allSeq ts
  | _ => false

/-- One matcher step: given `f`, the matcher for the remaining characters
`ds`, decide whether the pattern matches `d :: ds` (a Brzozowski-derivative
step).  A star form either matches the empty string here (step into the rest
of the pattern on the same character) or consumes `d`; `recPre` consumes
only sequences ending in `/` (tracked by `anyToSep`), `recSuf` only `/`
followed by anything. -/
def tmStep (f : List GlobToken → Bool) (d : Char) : List GlobToken → Bool
  | [] => false
  | GlobToken.lit c :: ts => c = d && f ts
  | GlobToken.anyChar :: ts => f ts
  | GlobToken.cls neg rs :: ts => clsMem neg rs d && f ts
  | GlobToken.anySeq :: ts => tmStep f d ts || f (GlobToken.anySeq :: ts)
  | GlobToken.anyToSep :: ts => f (GlobToken.anyToSep :: ts) || (d = '/' && f ts)
  | GlobToken.recPre :: ts =>
    tmStep f d ts || (f (GlobToken.anyToSep :: ts) || (d = '/' && f ts))
  | GlobToken.recSuf :: ts => tmStep f d ts || (d = '/' && f (GlobToken.anySeq :: ts))

/-- Matching one compiled pattern against a path's characters (`globset`
with default options: a star may cross `/`).  `tokMatch ts ds` satisfies the
usual glob-matching equations: the empty pattern matches only the empty
sequence, a star run matches any sequence, `lit`/`anyChar`/`cls` consume one
accepted character; it is phrased by structural recursion over `ds`. -/
def tokMatch (ts : List GlobToken) (ds : List Char) : Bool :=
  (ds.foldr (fun d f ts => tmStep f d ts) allSeq) ts

/-- `GlobSet::is_match`: some pattern of the compiled set matches. -/
def globset_is_match (pats : List (List GlobToken)) (path : String) : Bool :=
  pats.any (fun p => tokMatch p path.data)

/-- `model.rs` `RuleFrontmatter`, restricted to the fields the planning and
filtering core reads (the remaining fields are opaque pass-through data). -/
structure RuleFrontmatter where
  name : Option String := none
  description : Option String := none
  globs : Option (List String) := none
  always_apply : Option Bool := none
  order : Option Int := none
  when : Option When := none
  targets : Option (List String) := none
  simplify_globs_to_parent : Option Bool := none

/-- `loader.rs` `Rule`: front matter, body text, source path. -/
structure Rule where
  frontmatter : RuleFrontmatter
  body : String
  path : String

/-- `planner.rs` `filter_rules_for_root`: keep exactly the rules whose
`globs` is missing or empty; the context argument is unused (`_context`),
`when` filtering being deferred to the per-target pass. -/
def filter_rules_for_root (rules : List Rule) (_context : BuildContext) :
    Except String (List Rule) :=
  Except.ok (rules.filter (fun rule =>
    match rule.frontmatter.globs with
    | some globs => globs.isEmpty
    | none => true))

/-- `planner.rs` `filter_rules_for_file`: context must match; then missing or
empty `globs` applies to every file, and otherwise a glob set is built from
the patterns `Glob::new` accepts (malformed ones are skipped) and the file
must match it.  `GlobSetBuilder::build` on accepted globs is modelled as
always succeeding, so the `else false` of the failed-build branch never
fires. -/
def filter_rules_for_file (rules : List Rule) (file_path : String)
    (context : BuildContext) : Except String (List Rule) :=
  Except.ok (rules.filter (fun rule =>
    if ¬ context.matches_when rule.frontmatter.when then false
    else
      match rule.frontmatter.globs with
      | none => true
      | some globs =>
        if globs.isEmpty then true
        else globset_is_match (globs.filterMap parseGlob) file_path))

/-- The concrete directory part of one glob pattern, from
`find_common_parent_directory`: split on `/`, take components while they
contain no `*`, drop empty components. -/
def dirParts (g : String) : List (List Char) :=
  ((splitOnSlash g.data).takeWhile (fun part => ¬ part.contains '*')).filter
    (fun part => ¬ part.isEmpty)

/-- The common-prefix loop of `find_common_parent_directory`: walk `first`
with index `i`, keeping each component on which every pattern's directory
parts agree at position `i`, stopping at the first disagreement. -/
def commonPrefixLoop (dir_parts : List (List (List Char))) :
    List (List Char) → Nat → List (List Char)
  | [], _ => []
  | part :: restParts, i =>
    if dir_parts.all (fun p => p.get? i = some part) then
      part :: commonPrefixLoop dir_parts restParts (i + 1)
    else []

/-- Join path components back into a `/`-separated path (`PathBuf::from` of
the `join("/")` of the components). -/
def joinSlash : List (List Char) → List Char
  | [] => []
  | [p] => p
  | p :: ps => p ++ '/' :: joinSlash ps

/-- `planner.rs` `find_common_parent_directory`: empty pattern list yields the
empty set; if any pattern has no concrete directory part (it starts with a
wildcard), the set is the project root; otherwise the longest common prefix
of all patterns' directory parts, degrading to the root when that prefix is
empty.  The returned `HashSet<PathBuf>` is modelled as a list (it has at most
one element). -/
def find_common_parent_directory (globs : List String) : List String :=
  match globs.map dirParts with
  | [] => []
  | first :: rest =>
    if (first :: rest).any (fun parts => parts.isEmpty) then ["."]
    else
      let common := commonPrefixLoop (first :: rest) first 0
      if common.isEmpty then ["."]
      else [String.mk (joinSlash common)]

/-- The `filter_entry` predicate of the planner's directory walk: skip
entries whose name starts with `.` or is `node_modules`, `target`, or
`dist`. -/
def visitEntry (name : String) : Bool :=
  !(match name.data with | c :: _ => c = '.' | [] => false)
    && name ≠ "node_modules" && name ≠ "target" && name ≠ "dist"

/-- The filesystem below the project root, as `walkdir` would deliver it: one
entry per regular file, each the non-empty list of its path components
relative to the root. -/
abbrev FsFile := List String

/-- `planner.rs` `find_matching_directories`: compile every pattern with
`Glob::new(pattern)?` — the first malformed pattern aborts with an error —
then walk the files, skipping any file one of whose components fails the
`filter_entry` predicate, and collect the distinct parent directories of the
files the glob set matches.  A file directly under the root has parent `""`
(`Path::parent` on a bare file name yields `Some("")`; the `None` branch
inserting `"."` is unreachable for these non-empty relative paths).  The
`HashSet<PathBuf>` of directories is modelled as a deduplicated list. -/
def find_matching_directories (fs : List FsFile) (globs : List String) :
    Except String (List String) := do
  let globset ← globs.mapM (fun pattern =>
    match parseGlob pattern with
    | some g => Except.ok g
    | none => Except.error ("invalid glob pattern: " ++ pattern))
  Except.ok (fs.foldl (fun dirs file =>
    if file.isEmpty then dirs
    else if ¬ file.all visitEntry then dirs
    else if globset.any (fun g => tokMatch g (String.intercalate "/" file).data) then
      let parent := String.intercalate "/" file.dropLast
      if dirs.contains parent then dirs else dirs ++ [parent]
    else dirs) [])

/-- The planner's result: `HashMap<PathBuf, Vec<Rule>>`, modelled as an
association list with pairwise distinct keys. -/
abbrev Plan := List (String × List Rule)

/-- `outputs.entry(dir).or_default().push(rule)`: append the rule to the
directory's list, creating the entry when absent. -/
def planPush (outputs : Plan) (dir : String) (rule : Rule) : Plan :=
  if outputs.any (fun e => e.1 = dir) then
    outputs.map (fun e => if e.1 = dir then (e.1, e.2 ++ [rule]) else e)
  else outputs ++ [(dir, [rule])]

/-- The body of `plan_outputs`' rule loop: a rule with missing or empty
globs is skipped (already handled by the root set); otherwise its target
directories come from `find_common_parent_directory` when
`simplifyGlobsToParent` is unset or true, and from the filesystem walk
otherwise, and the rule is pushed onto each of them. -/
def planStep (fs : List FsFile) (outputs : Plan) (rule : Rule) : Except String Plan :=
  match rule.frontmatter.globs with
  | none => pure outputs
  | some globs =>
    if globs.isEmpty then pure outputs
    else do
      let simplify := rule.frontmatter.simplify_globs_to_parent.getD true
      let dirs ← if simplify then pure (find_common_parent_directory globs)
        else find_matching_directories fs globs
      pure (dirs.foldl (fun outputs dir => planPush outputs dir rule) outputs)

/-- `planner.rs` `plan_outputs`: seed the plan with `"."` mapped to the root
rules when that set is non-empty; then run the rule loop (`planStep`) over
every rule. -/
def plan_outputs (rules : List Rule) (context : BuildContext) (fs : List FsFile) :
    Except String Plan := do
  let root_rules ← filter_rules_for_root rules context
  let init : Plan := if root_rules.isEmpty then [] else [(".", root_rules)]
  rules.foldlM (planStep fs) init

/-- `merge.rs` `merge_rule_bodies`: empty input yields the empty string,
otherwise the bodies joined with a blank-line separator. -/
def merge_rule_bodies (rendered : List String) : Except String String :=
  if rendered.isEmpty then Except.ok ""
  else Except.ok (String.intercalate "\n\n" rendered)

/-! ## Concrete fixtures, mirroring the planner's test rules -/

/-- A rule with no globs and no `when` clause. -/
def ruleNoGlobs : Rule :=
  { frontmatter := {}, body := "test", path := "test.md" }

/-- A rule with no globs gated on `env ∈ ["prod"]`. -/
def ruleNoGlobsWhenProd : Rule :=
  { frontmatter := { when := some (When.legacy (some ["prod"]) none none none) }
    body := "test", path := "test.md" }

/-- A rule with one malformed glob pattern (`[` — an unclosed character
class, which `Glob::new` rejects) and the parent strategy
(`simplifyGlobsToParent: false`). -/
def ruleBadGlobNoSimplify : Rule :=
  { frontmatter := { globs := some ["["], simplify_globs_to_parent := some false }
    body := "test", path := "test.md" }

/-- A rule whose glob `**/*.rs` scopes it to Rust files. -/
def ruleRs : Rule :=
  { frontmatter := { globs := some ["**/*.rs"] }, body := "test", path := "test.md" }

/-- A Rust-scoped rule that opts out of common-parent simplification
(`simplifyGlobsToParent: false`), so planning walks the tree. -/
def ruleRsNoSimplify : Rule where
  frontmatter :=
    { globs := some ["**/*.rs"]
      simplify_globs_to_parent := some false }
  body := "test"
  path := "test.md"

/-- Scenario rule: backend-gated rule scoped under `packages/backend`. -/
def ruleBackend : Rule where
  frontmatter :=
    { globs := some ["packages/backend/**"]
      when := some (When.legacy none (some ["backend"]) none none) }
  body := "backend"
  path := "backend.md"

/-- Scenario rule: frontend-gated rule scoped under `packages/frontend`. -/
def ruleFrontend : Rule where
  frontmatter :=
    { globs := some ["packages/frontend/**"]
      when := some (When.legacy none (some ["frontend"]) none none) }
  body := "frontend"
  path := "frontend.md"

/-- The empty build context. -/
def ctxEmpty : BuildContext := BuildContext.new none none none

/-- A context with `role = backend`. -/
def ctxBackend : BuildContext := BuildContext.new none (some "backend") none

/-- A context with `role = frontend`. -/
def ctxFrontend : BuildContext := BuildContext.new none (some "frontend") none

/-! ## Theorems -/

theorem interGo_append (a b s : String) (as : List String) :
    String.intercalate.go (a ++ b) s as = a ++ String.intercalate.go b s as := by
  induction as generalizing b with
  | nil => rfl
  | cons c cs ih =>
    show String.intercalate.go ((a ++ b) ++ s ++ c) s cs
      = a ++ String.intercalate.go b s (c :: cs)
    have h1 : (a ++ b) ++ s ++ c = a ++ (b ++ s ++ c) := by
      simp [String.append_assoc]
    rw [h1, ih]
    rfl

/-- C9: `merge` returns `""` on the empty list, the sole body unchanged on a
singleton, `a ++ "\n\n" ++ b` on a pair, and in general joins its inputs in
order with the blank-line separator: prepending a body to a non-empty input
prepends that body and one separator to the previous result. -/
theorem merge_join_spec :
    merge_rule_bodies [] = Except.ok "" ∧
    (∀ x : String, merge_rule_bodies [x] = Except.ok x) ∧
    (∀ a b : String, merge_rule_bodies [a, b] = Except.ok (a ++ "\n\n" ++ b)) ∧
    (∀ (x y : String) (rest : List String) (s : String),
      merge_rule_bodies (y :: rest) = Except.ok s →
      merge_rule_bodies (x :: y :: rest) = Except.ok (x ++ "\n\n" ++ s)) := by
  have hcons : ∀ (x y : String) (rest : List String),
      String.intercalate "\n\n" (x :: y :: rest)
        = x ++ "\n\n" ++ String.intercalate "\n\n" (y :: rest) := by
    intro x y rest
    show String.intercalate.go (x ++ "\n\n" ++ y) "\n\n" rest = _
    rw [interGo_append (x ++ "\n\n") y]
    rfl
  refine ⟨rfl, fun x => rfl, fun a b => ?_, fun x y rest s h => ?_⟩
  · show Except.ok (String.intercalate "\n\n" [a, b]) = _
    rw [hcons]
    rfl
  · have hs : s = String.intercalate "\n\n" (y :: rest) := by
      have : Except.ok (α := String) (String.intercalate "\n\n" (y :: rest)) = Except.ok s := h
      exact (Except.ok.inj this).symm
    show Except.ok (String.intercalate "\n\n" (x :: y :: rest)) = _
    rw [hcons, hs]

/-- C9 witness: the pair equation at `"a"`, `"b"`, derived by applying the
cons equation of `merge_join_spec` to the singleton result. -/
theorem merge_join_spec_witness :
    merge_rule_bodies ["a", "b"] = Except.ok ("a" ++ "\n\n" ++ "b") :=
  merge_join_spec.2.2.2 "a" "b" [] "b" rfl

/-- C1: the context matcher accepts a missing `when` clause; it accepts a
present clause exactly when every requirement pair of `all_variables` finds
its dimension in the context with a value in the accepted list; and it is
fail-closed — a required dimension missing from the context forces a
rejection, whatever the accepted-value list for it says. -/
theorem matches_when_spec (ctx : BuildContext) (w : When) :
    ctx.matches_when none = true ∧
    (ctx.matches_when (some w) = true ↔
      ∀ p ∈ w.all_variables, ∃ v, ctx.vars.lookup p.1 = some v ∧ v ∈ p.2) ∧
    (∀ d vals, (d, vals) ∈ w.all_variables → ctx.vars.lookup d = none →
      ctx.matches_when (some w) = false) := by
  have hiff : ctx.matches_when (some w) = true ↔
      ∀ p ∈ w.all_variables, ∃ v, ctx.vars.lookup p.1 = some v ∧ v ∈ p.2 := by
    show (w.all_variables.all _) = true ↔ _
    rw [List.all_eq_true]
    constructor
    · intro h p hp
      have hp2 := h p hp
      cases hl : ctx.vars.lookup p.1 with
      | none => rw [hl] at hp2; simp at hp2
      | some v =>
        rw [hl] at hp2
        exact ⟨v, rfl, by simpa using hp2⟩
    · intro h p hp
      obtain ⟨v, hv, hm⟩ := h p hp
      show (match ctx.vars.lookup p.1 with
        | some ctx_val => p.2.contains ctx_val
        | none => false) = true
      rw [hv]
      simpa using hm
  refine ⟨rfl, hiff, fun d vals hmem hl => ?_⟩
  cases hmw : ctx.matches_when (some w) with
  | false => rfl
  | true =>
    obtain ⟨v, hv, _⟩ := (hiff.mp hmw) (d, vals) hmem
    rw [hl] at hv
    exact Option.noConfusion hv

/-- C1 witness: a context lacking `env` is rejected by a clause requiring
`env ∈ ["prod"]`, via the fail-closed conjunct of `matches_when_spec` at a
concrete context and clause. -/
theorem matches_when_spec_witness :
    (BuildContext.new none none none).matches_when
      (some (When.legacy (some ["prod"]) none none none)) = false :=
  (matches_when_spec (BuildContext.new none none none)
      (When.legacy (some ["prod"]) none none none)).2.2
    "env" ["prod"] (by simp [When.all_variables, When.legacy]) rfl

/-- C10: an arbitrary (non-legacy) `when` dimension whose JSON array holds no
string values is dropped from the requirements before matching, so every
context — a context with no entry for that dimension included — matches;
whereas a legacy dimension with an empty accepted list stays required, so no
context matches. -/
theorem empty_dimension_requirements (ctx : BuildContext) (k : String)
    (vs : List JVal) (hk : legacyKey k = false)
    (hvs : vs.filterMap JVal.as_str = []) :
    ctx.matches_when (some (When.mk none none none none [(k, JVal.arr vs)])) = true ∧
    (∀ ctx2 : BuildContext,
      ctx2.matches_when (some (When.mk (some []) none none none [])) = false) := by
  constructor
  · show (When.all_variables _).all _ = true
    have hav : (When.mk none none none none [(k, JVal.arr vs)]).all_variables = [] := by
      show [] ++ [] ++ [] ++ [] ++ _ = []
      simp only [List.nil_append]
      show List.filterMap _ [(k, JVal.arr vs)] = []
      simp only [List.filterMap]
      rw [hk]
      simp [hvs]
    rw [hav]
    rfl
  · intro ctx2
    have hav : (When.mk (some []) none none none []).all_variables = [("env", [])] := rfl
    cases hmw : ctx2.matches_when (some (When.mk (some []) none none none [])) with
    | false => rfl
    | true =>
      have h1 := List.all_eq_true.mp hmw ("env", ([] : List String)) (by rw [hav]; exact List.mem_singleton.mpr rfl)
      cases hl : ctx2.vars.lookup "env" with
      | none => rw [hl] at h1; simp at h1
      | some v => rw [hl] at h1; simp at h1

/-- C10 witness: the dropped-dimension conjunct at the empty context with the
arbitrary dimension `region` carrying an empty array, and the kept-legacy
conjunct, both via `empty_dimension_requirements`. -/
theorem empty_dimension_requirements_witness :
    (BuildContext.new none none none).matches_when
      (some (When.mk none none none none [("region", JVal.arr [])])) = true ∧
    (BuildContext.new none none none).matches_when
      (some (When.mk (some []) none none none [])) = false := by
  have h := empty_dimension_requirements (BuildContext.new none none none)
    "region" [] rfl rfl
  exact ⟨h.1, h.2 (BuildContext.new none none none)⟩

/-- C6 counterexample: a rule with absent globs but a `when` clause the
context does not satisfy is included by `filter_rules_for_root` yet excluded
by `filter_rules_for_file`, refuting the claim's "is also included by
filterForFile for any path" for every rule with empty or absent globs. -/
theorem root_filter_counterexample :
    filter_rules_for_root [ruleNoGlobsWhenProd] ctxEmpty
        = Except.ok [ruleNoGlobsWhenProd] ∧
    filter_rules_for_file [ruleNoGlobsWhenProd] "src/main.rs" ctxEmpty
        = Except.ok [] :=
  ⟨rfl, rfl⟩

/-- C6 amended: `filter_rules_for_root` includes a rule iff its globs are
absent or empty, without evaluating `when` (the result is the same under any
context); and such a rule is included by `filter_rules_for_file` for any
path provided the context matcher accepts its `when` clause. -/
theorem root_filter_structural (rules : List Rule) (ctx ctx2 : BuildContext)
    (fp : String) (rs rsf : List Rule)
    (hroot : filter_rules_for_root rules ctx = Except.ok rs)
    (hfile : filter_rules_for_file rules fp ctx = Except.ok rsf) :
    (∀ r ∈ rules, (r.frontmatter.globs = none ∨ r.frontmatter.globs = some []) → r ∈ rs) ∧
    (∀ r ∈ rs, r.frontmatter.globs = none ∨ r.frontmatter.globs = some []) ∧
    filter_rules_for_root rules ctx2 = filter_rules_for_root rules ctx ∧
    (∀ r ∈ rules, (r.frontmatter.globs = none ∨ r.frontmatter.globs = some []) →
      ctx.matches_when r.frontmatter.when = true → r ∈ rsf) := by
  have hrs : rules.filter (fun rule =>
      match rule.frontmatter.globs with
      | some globs => globs.isEmpty
      | none => true) = rs := Except.ok.inj hroot
  have hpred : ∀ r : Rule,
      (r.frontmatter.globs = none ∨ r.frontmatter.globs = some []) →
      (match r.frontmatter.globs with
        | some globs => globs.isEmpty
        | none => true) = true := by
    intro r h
    rcases h with h | h <;> simp [h]
  refine ⟨?_, ?_, rfl, ?_⟩
  · intro r hr hg
    rw [← hrs]
    exact List.mem_filter.mpr ⟨hr, hpred r hg⟩
  · intro r hr
    rw [← hrs] at hr
    have hp := (List.mem_filter.mp hr).2
    cases hg : r.frontmatter.globs with
    | none => exact Or.inl rfl
    | some globs =>
      rw [hg] at hp
      have hp2 : globs.isEmpty = true := hp
      exact Or.inr (by rw [List.isEmpty_iff.mp hp2])
  · intro r hr hg hm
    have hrsf : rules.filter _ = rsf := Except.ok.inj hfile
    rw [← hrsf]
    refine List.mem_filter.mpr ⟨hr, ?_⟩
    show (if ¬ ctx.matches_when r.frontmatter.when then false
      else match r.frontmatter.globs with
        | none => true
        | some globs =>
          if globs.isEmpty then true
          else globset_is_match (globs.filterMap parseGlob) fp) = true
    rw [hm]
    rcases hg with h | h <;> simp [h]

/-- C6 witness: `root_filter_structural` applied to one glob-free rule,
giving context-independence of the root filter between the backend context
and the empty context. -/
theorem root_filter_structural_witness :
    filter_rules_for_root [ruleNoGlobs] ctxBackend
      = filter_rules_for_root [ruleNoGlobs] ctxEmpty :=
  (root_filter_structural [ruleNoGlobs] ctxEmpty ctxBackend "x"
      [ruleNoGlobs] [ruleNoGlobs] rfl rfl).2.2.1

/-- C5: `filter_rules_for_file` keeps exactly the rules whose `when` clause
matches the context and which are either unscoped (absent or empty globs) or
have some pattern matching the file; the result is a sublist of the input
(input order preserved, no reordering by `order`). -/
theorem file_filter_spec (rules : List Rule) (fp : String) (ctx : BuildContext) :
    filter_rules_for_file rules fp ctx = Except.ok (rules.filter (fun r =>
      ctx.matches_when r.frontmatter.when &&
        (match r.frontmatter.globs with
         | none => true
         | some globs =>
           globs.isEmpty || globset_is_match (globs.filterMap parseGlob) fp))) ∧
    (∀ rsf, filter_rules_for_file rules fp ctx = Except.ok rsf →
      rsf.Sublist rules ∧
      (∀ r, r ∈ rsf ↔ r ∈ rules ∧ ctx.matches_when r.frontmatter.when = true ∧
        (∀ globs, r.frontmatter.globs = some globs →
          globs = [] ∨ globset_is_match (globs.filterMap parseGlob) fp = true))) := by
  have hpt : ∀ r : Rule,
      (if ¬ ctx.matches_when r.frontmatter.when then false
        else match r.frontmatter.globs with
          | none => true
          | some globs =>
            if globs.isEmpty then true
            else globset_is_match (globs.filterMap parseGlob) fp)
      = (ctx.matches_when r.frontmatter.when &&
          (match r.frontmatter.globs with
           | none => true
           | some globs =>
             globs.isEmpty || globset_is_match (globs.filterMap parseGlob) fp)) := by
    intro r
    cases hm : ctx.matches_when r.frontmatter.when with
    | false => simp
    | true =>
      simp only [Bool.true_and, Bool.not_true, not_true_eq_false, if_false]
      cases hg : r.frontmatter.globs with
      | none => rfl
      | some globs => cases hge : globs.isEmpty <;> simp [hge]
  have heq : filter_rules_for_file rules fp ctx = Except.ok (rules.filter (fun r =>
      ctx.matches_when r.frontmatter.when &&
        (match r.frontmatter.globs with
         | none => true
         | some globs =>
           globs.isEmpty || globset_is_match (globs.filterMap parseGlob) fp))) := by
    show Except.ok (rules.filter _) = Except.ok (rules.filter _)
    rw [List.filter_congr (fun r _ => hpt r)]
  refine ⟨heq, fun rsf hrsf => ?_⟩
  have hr2 := Except.ok.inj (heq.symm.trans hrsf)
  constructor
  · rw [← hr2]; exact List.filter_sublist rules
  · intro r
    rw [← hr2, List.mem_filter]
    constructor
    · rintro ⟨hmem, hp⟩
      have hand := Bool.and_eq_true_iff.mp hp
      refine ⟨hmem, hand.1, ?_⟩
      intro globs hg
      have h2 := hand.2
      rw [hg] at h2
      rcases Bool.or_eq_true_iff.mp h2 with h | h
      · exact Or.inl (List.isEmpty_iff.mp h)
      · exact Or.inr h
    · rintro ⟨hmem, hm, hglobs⟩
      refine ⟨hmem, Bool.and_eq_true_iff.mpr ⟨hm, ?_⟩⟩
      cases hg : r.frontmatter.globs with
      | none => rfl
      | some globs =>
        rcases hglobs globs hg with h | h
        · rw [h]; rfl
        · show (globs.isEmpty
              || globset_is_match (List.filterMap parseGlob globs) fp) = true
          rw [h, Bool.or_true]

/-- C5 witness: `file_filter_spec` at one Rust-scoped rule and the path
`src/main.rs` — the rule is kept because `**/*.rs` matches the path. -/
theorem file_filter_spec_witness : ruleRs ∈ ([ruleRs] : List Rule) :=
  (((file_filter_spec [ruleRs] "src/main.rs" ctxEmpty).2 [ruleRs] rfl).2 ruleRs).mpr
    ⟨List.mem_singleton.mpr rfl, rfl, fun globs hg => Or.inr (by
      obtain rfl : (["**/*.rs"] : List String) = globs := by simpa [ruleRs] using hg
      rfl)⟩

theorem planStep_none (fs : List FsFile) (outputs : Plan) (rule : Rule)
    (hg : rule.frontmatter.globs = none) :
    planStep fs outputs rule = Except.ok outputs := by
  unfold planStep
  rw [hg]
  rfl

theorem planStep_empty (fs : List FsFile) (outputs : Plan) (rule : Rule)
    (globs : List String) (hg : rule.frontmatter.globs = some globs)
    (hge : globs.isEmpty = true) :
    planStep fs outputs rule = Except.ok outputs := by
  unfold planStep
  rw [hg]
  simp only [hge, if_true]
  rfl

theorem planStep_simplify (fs : List FsFile) (outputs : Plan) (rule : Rule)
    (globs : List String) (hg : rule.frontmatter.globs = some globs)
    (hge : globs.isEmpty = false)
    (hsimp : rule.frontmatter.simplify_globs_to_parent.getD true = true) :
    planStep fs outputs rule = Except.ok ((find_common_parent_directory globs).foldl
      (fun outputs dir => planPush outputs dir rule) outputs) := by
  unfold planStep
  rw [hg]
  simp only [hge, hsimp, Bool.false_eq_true, if_false, if_true]
  rfl

theorem planStep_walk_error (fs : List FsFile) (outputs : Plan) (rule : Rule)
    (globs : List String) (e : String) (hg : rule.frontmatter.globs = some globs)
    (hge : globs.isEmpty = false)
    (hsimp : rule.frontmatter.simplify_globs_to_parent.getD true = false)
    (hfm : find_matching_directories fs globs = Except.error e) :
    planStep fs outputs rule = Except.error e := by
  unfold planStep
  rw [hg]
  simp only [hge, hsimp, Bool.false_eq_true, if_false, hfm]
  rfl

theorem planStep_walk_ok (fs : List FsFile) (outputs : Plan) (rule : Rule)
    (globs : List String) (ds : List String)
    (hg : rule.frontmatter.globs = some globs) (hge : globs.isEmpty = false)
    (hsimp : rule.frontmatter.simplify_globs_to_parent.getD true = false)
    (hfm : find_matching_directories fs globs = Except.ok ds) :
    planStep fs outputs rule = Except.ok (ds.foldl
      (fun outputs dir => planPush outputs dir rule) outputs) := by
  unfold planStep
  rw [hg]
  simp only [hge, hsimp, Bool.false_eq_true, if_false, hfm]
  rfl

/-- C3 counterexample: with the non-simplified strategy
(`simplifyGlobsToParent: false`), planning a rule whose glob list holds the
malformed pattern `[` aborts `plan_outputs` with an error instead of
skipping the pattern — `Glob::new(pattern)?` in the directory walk
propagates the parse failure. -/
theorem plan_error_counterexample :
    plan_outputs [ruleBadGlobNoSimplify] ctxEmpty []
      = Except.error "invalid glob pattern: [" := rfl

/-- C3 amended: `filter_rules_for_file` never returns an error (malformed
patterns are skipped there), and `plan_outputs` never returns an error when
every rule keeps the default common-parent strategy; only a rule that
disables `simplifyGlobsToParent` can propagate a malformed-glob error out of
planning. -/
theorem glob_error_handling :
    (∀ (rules : List Rule) (fp : String) (ctx : BuildContext),
      ∃ rs, filter_rules_for_file rules fp ctx = Except.ok rs) ∧
    (∀ (rules : List Rule) (ctx : BuildContext) (fs : List FsFile),
      (∀ r ∈ rules, r.frontmatter.simplify_globs_to_parent.getD true = true) →
      ∃ m, plan_outputs rules ctx fs = Except.ok m) := by
  refine ⟨fun rules fp ctx => ⟨_, rfl⟩, fun rules ctx fs hall => ?_⟩
  have key : ∀ (l : List Rule) (outputs : Plan),
      (∀ r ∈ l, r.frontmatter.simplify_globs_to_parent.getD true = true) →
      ∃ m, List.foldlM (planStep fs) outputs l = Except.ok m := by
    intro l
    induction l with
    | nil => exact fun outputs _ => ⟨outputs, rfl⟩
    | cons r rest ih =>
      intro outputs hl
      have hr : r.frontmatter.simplify_globs_to_parent.getD true = true :=
        hl r (List.mem_cons_self r rest)
      have hstep : ∃ out1, planStep fs outputs r = Except.ok out1 := by
        cases hg : r.frontmatter.globs with
        | none => exact ⟨outputs, planStep_none fs outputs r hg⟩
        | some globs =>
          cases hge : globs.isEmpty with
          | true => exact ⟨outputs, planStep_empty fs outputs r globs hg hge⟩
          | false =>
            exact ⟨(find_common_parent_directory globs).foldl
              (fun outputs dir => planPush outputs dir r) outputs,
              planStep_simplify fs outputs r globs hg hge hr⟩
      obtain ⟨out1, ho⟩ := hstep
      obtain ⟨m, hm⟩ := ih out1 (fun x hx => hl x (List.mem_cons_of_mem r hx))
      refine ⟨m, ?_⟩
      rw [List.foldlM_cons, ho]
      exact hm
  obtain ⟨m, hm⟩ := key rules
    (if (rules.filter (fun rule =>
        match rule.frontmatter.globs with
        | some globs => globs.isEmpty
        | none => true)).isEmpty
      then []
      else [(".", rules.filter (fun rule =>
        match rule.frontmatter.globs with
        | some globs => globs.isEmpty
        | none => true))]) hall
  exact ⟨m, hm⟩

/-- C3 witness: `glob_error_handling` applied to a rule set with a malformed
pattern (file filtering still succeeds, skipping it) and to a default
strategy rule set (planning succeeds). -/
theorem glob_error_handling_witness :
    (∃ rs, filter_rules_for_file [ruleBadGlobNoSimplify] "x" ctxEmpty = Except.ok rs) ∧
    (∃ m, plan_outputs [ruleRs] ctxEmpty [] = Except.ok m) :=
  ⟨glob_error_handling.1 [ruleBadGlobNoSimplify] "x" ctxEmpty,
    glob_error_handling.2 [ruleRs] ctxEmpty []
      (by intro r hr; rw [List.mem_singleton.mp hr]; rfl)⟩

/-- C8: `plan_outputs` is deterministic and context-independent — for any
two contexts (and in particular for two calls at identical inputs) it
returns the same plan; `when` differentiation happens only later, per
target. -/
theorem plan_outputs_context_free (rules : List Rule) (c1 c2 : BuildContext)
    (fs : List FsFile) :
    plan_outputs rules c1 fs = plan_outputs rules c2 fs := rfl

/-- C8 witness: the spec's three-rule scenario — a root-only rule, a
backend-gated rule under `packages/backend`, a frontend-gated rule under
`packages/frontend` — planned under the backend context and the frontend
context, via `plan_outputs_context_free`; either way the plan has entries
for all three directories. -/
theorem plan_outputs_context_free_witness :
    plan_outputs [ruleNoGlobs, ruleBackend, ruleFrontend] ctxBackend []
      = plan_outputs [ruleNoGlobs, ruleBackend, ruleFrontend] ctxFrontend [] ∧
    plan_outputs [ruleNoGlobs, ruleBackend, ruleFrontend] ctxBackend []
      = Except.ok [(".", [ruleNoGlobs]), ("packages/backend", [ruleBackend]),
          ("packages/frontend", [ruleFrontend])] :=
  ⟨plan_outputs_context_free [ruleNoGlobs, ruleBackend, ruleFrontend]
      ctxBackend ctxFrontend [], rfl⟩

/-- C7: every directory entry of a successful plan carries a non-empty rule
list — the root entry exists only when the root set is non-empty, and every
other entry is created by pushing a rule onto it. -/
theorem plan_entries_nonempty (rules : List Rule) (ctx : BuildContext)
    (fs : List FsFile) (m : Plan) (h : plan_outputs rules ctx fs = Except.ok m) :
    ∀ e ∈ m, e.2 ≠ [] := by
  have hpush : ∀ (outputs : Plan) (dir : String) (rule : Rule),
      (∀ e ∈ outputs, e.2 ≠ []) → ∀ e ∈ planPush outputs dir rule, e.2 ≠ [] := by
    intro outputs dir rule hinv e he
    unfold planPush at he
    by_cases hc : outputs.any (fun e => e.1 = dir) = true
    · rw [if_pos hc] at he
      obtain ⟨a, ha, hae⟩ := List.mem_map.mp he
      by_cases had : a.1 = dir
      · rw [if_pos had] at hae
        rw [← hae]
        simp
      · rw [if_neg had] at hae
        rw [← hae]
        exact hinv a ha
    · rw [if_neg hc] at he
      rcases List.mem_append.mp he with h1 | h1
      · exact hinv e h1
      · rw [List.mem_singleton.mp h1]
        simp
  have hfold : ∀ (dirs : List String) (outputs : Plan) (rule : Rule),
      (∀ e ∈ outputs, e.2 ≠ []) →
      ∀ e ∈ dirs.foldl (fun outputs dir => planPush outputs dir rule) outputs,
        e.2 ≠ [] := by
    intro dirs
    induction dirs with
    | nil => intro outputs rule hinv; exact hinv
    | cons d ds ih => intro outputs rule hinv; exact ih _ rule (hpush outputs d rule hinv)
  have hstep : ∀ (outputs : Plan) (rule : Rule) (out1 : Plan),
      (∀ e ∈ outputs, e.2 ≠ []) → planStep fs outputs rule = Except.ok out1 →
      ∀ e ∈ out1, e.2 ≠ [] := by
    intro outputs rule out1 hinv hs
    cases hg : rule.frontmatter.globs with
    | none =>
      rw [planStep_none fs outputs rule hg] at hs
      rw [← Except.ok.inj hs]
      exact hinv
    | some globs =>
      cases hge : globs.isEmpty with
      | true =>
        rw [planStep_empty fs outputs rule globs hg hge] at hs
        rw [← Except.ok.inj hs]
        exact hinv
      | false =>
        cases hsimp : rule.frontmatter.simplify_globs_to_parent.getD true with
        | true =>
          rw [planStep_simplify fs outputs rule globs hg hge hsimp] at hs
          rw [← Except.ok.inj hs]
          exact hfold _ outputs rule hinv
        | false =>
          cases hfm : find_matching_directories fs globs with
          | error e =>
            rw [planStep_walk_error fs outputs rule globs e hg hge hsimp hfm] at hs
            exact Except.noConfusion hs
          | ok ds =>
            rw [planStep_walk_ok fs outputs rule globs ds hg hge hsimp hfm] at hs
            rw [← Except.ok.inj hs]
            exact hfold ds outputs rule hinv
  have hfoldlM : ∀ (l : List Rule) (outputs mm : Plan),
      (∀ e ∈ outputs, e.2 ≠ []) →
      List.foldlM (planStep fs) outputs l = Except.ok mm →
      ∀ e ∈ mm, e.2 ≠ [] := by
    intro l
    induction l with
    | nil =>
      intro outputs mm hinv hm
      rw [← Except.ok.inj hm]
      exact hinv
    | cons r rest ih =>
      intro outputs mm hinv hm
      rw [List.foldlM_cons] at hm
      cases hs : planStep fs outputs r with
      | error e => rw [hs] at hm; exact Except.noConfusion hm
      | ok out1 =>
        rw [hs] at hm
        exact ih out1 mm (hstep outputs r out1 hinv hs) hm
  have h2 : List.foldlM (planStep fs)
      (if (rules.filter (fun rule =>
          match rule.frontmatter.globs with
          | some globs => globs.isEmpty
          | none => true)).isEmpty
        then ([] : Plan)
        else [(".", rules.filter (fun rule =>
          match rule.frontmatter.globs with
          | some globs => globs.isEmpty
          | none => true))]) rules = Except.ok m := h
  refine hfoldlM rules _ m ?_ h2
  by_cases hre : (rules.filter (fun rule =>
      match rule.frontmatter.globs with
      | some globs => globs.isEmpty
      | none => true)).isEmpty = true
  · rw [if_pos hre]
    intro e he
    exact absurd he (List.not_mem_nil e)
  · rw [if_neg hre]
    intro e he
    rw [List.mem_singleton.mp he]
    intro hnil
    have hx : rules.filter (fun rule =>
        match rule.frontmatter.globs with
        | some globs => globs.isEmpty
        | none => true) = [] := hnil
    apply hre
    rw [hx]
    rfl

/-- C7 witness: `plan_entries_nonempty` at a concrete two-rule plan; the
root entry's list is non-empty. -/
theorem plan_entries_nonempty_witness : ([ruleNoGlobs] : List Rule) ≠ [] :=
  plan_entries_nonempty [ruleNoGlobs, ruleBackend] ctxEmpty []
    [(".", [ruleNoGlobs]), ("packages/backend", [ruleBackend])] rfl
    (".", [ruleNoGlobs]) (List.mem_cons_self _ _)

theorem pre_iff_get {α : Type} (q p : List α) :
    q <+: p ↔ ∀ j, j < q.length → p.get? j = q.get? j := by
  induction q generalizing p with
  | nil =>
    simp only [List.length_nil]
    constructor
    · intro _ j hj; omega
    · intro _; exact ⟨p, by simp⟩
  | cons x q2 ih =>
    cases p with
    | nil =>
      constructor
      · intro hq
        have := List.prefix_nil.mp hq
        exact absurd this (by simp)
      · intro hq
        have := hq 0 (by simp)
        simp at this
    | cons y p2 =>
      rw [List.cons_prefix_cons]
      constructor
      · rintro ⟨rfl, hq⟩ j hj
        cases j with
        | zero => rfl
        | succ j2 =>
          simp only [List.get?]
          exact (ih p2).mp hq j2 (by simpa using hj)
      · intro hq
        have h0 := hq 0 (by simp)
        simp only [List.get?] at h0
        refine ⟨(Option.some.inj h0).symm, (ih p2).mpr ?_⟩
        intro j hj
        have := hq (j + 1) (by simpa using Nat.succ_lt_succ hj)
        simpa only [List.get?] using this

theorem commonPrefixLoop_pre (all : List (List (List Char))) :
    ∀ (rem : List (List Char)) (i : Nat), commonPrefixLoop all rem i <+: rem := by
  intro rem
  induction rem with
  | nil => intro i; exact ⟨[], rfl⟩
  | cons part restParts ih =>
    intro i
    unfold commonPrefixLoop
    by_cases hc : all.all (fun p => p.get? i = some part) = true
    · rw [if_pos hc]
      exact List.cons_prefix_cons.mpr ⟨rfl, ih (i + 1)⟩
    · rw [if_neg hc]
      exact ⟨part :: restParts, by simp⟩

theorem commonPrefixLoop_get (all : List (List (List Char))) :
    ∀ (rem : List (List Char)) (i : Nat) (p : List (List Char)), p ∈ all →
      ∀ j, j < (commonPrefixLoop all rem i).length →
        p.get? (i + j) = (commonPrefixLoop all rem i).get? j := by
  intro rem
  induction rem with
  | nil => intro i p _ j hj; simp [commonPrefixLoop] at hj
  | cons part restParts ih =>
    intro i p hp j hj
    unfold commonPrefixLoop
    unfold commonPrefixLoop at hj
    by_cases hc : all.all (fun p => p.get? i = some part) = true
    · rw [if_pos hc] at hj ⊢
      have hcp : ∀ x ∈ all, x.get? i = some part := by
        simpa only [List.all_eq_true, decide_eq_true_eq] using hc
      cases j with
      | zero =>
        show p.get? (i + 0) = some part
        rw [Nat.add_zero]
        exact hcp p hp
      | succ j2 =>
        show p.get? (i + (j2 + 1)) = (commonPrefixLoop all restParts (i + 1)).get? j2
        have : i + (j2 + 1) = (i + 1) + j2 := by omega
        rw [this]
        exact ih (i + 1) p hp j2 (by simpa using hj)
    · rw [if_neg hc] at hj
      simp at hj

theorem commonPrefixLoop_max (all : List (List (List Char))) :
    ∀ (q rem : List (List Char)) (i : Nat),
      (∀ j, j < q.length → ∀ p ∈ all, p.get? (i + j) = q.get? j) →
      q <+: rem → q <+: commonPrefixLoop all rem i := by
  intro q
  induction q with
  | nil => intro rem i _ _; exact ⟨commonPrefixLoop all rem i, rfl⟩
  | cons x q2 ih =>
    intro rem i hcommon hpre
    cases rem with
    | nil =>
      have := List.prefix_nil.mp hpre
      exact absurd this (by simp)
    | cons r0 rem2 =>
      obtain ⟨hx, hq2⟩ := List.cons_prefix_cons.mp hpre
      subst hx
      have hc : all.all (fun p => p.get? i = some x) = true := by
        simp only [List.all_eq_true, decide_eq_true_eq]
        intro p hp
        have := hcommon 0 (by simp) p hp
        simpa using this
      unfold commonPrefixLoop
      rw [if_pos hc]
      refine List.cons_prefix_cons.mpr ⟨rfl, ih rem2 (i + 1) ?_ hq2⟩
      intro j hj p hp
      have := hcommon (j + 1) (by simpa using Nat.succ_lt_succ hj) p hp
      have harith : i + (j + 1) = (i + 1) + j := by omega
      rw [harith] at this
      simpa only [List.get?] using this

theorem fcpd_cons (globs : List String) (first : List (List Char))
    (rest : List (List (List Char))) (hm : globs.map dirParts = first :: rest) :
    find_common_parent_directory globs =
      (if (first :: rest).any (fun parts => parts.isEmpty) then ["."]
       else
         if (commonPrefixLoop (first :: rest) first 0).isEmpty then ["."]
         else [String.mk (joinSlash (commonPrefixLoop (first :: rest) first 0))]) := by
  unfold find_common_parent_directory
  rw [hm]

/-- C2: for a non-empty glob list under the default common-parent strategy,
`find_common_parent_directory` yields exactly one directory.  If some
pattern has no literal directory part (it starts with a wildcard), that
directory is the project root `"."`; otherwise there is a longest common
prefix `L` of all the patterns' literal directory parts — a prefix of each,
and extending every other common prefix — and the directory is the
`/`-joined `L`, degrading to `"."` when `L` is empty.  The computation never
consults a filesystem: it is a function of the pattern text alone. -/
theorem common_parent_spec (globs : List String) (h : globs ≠ []) :
    ((∃ g ∈ globs, dirParts g = []) → find_common_parent_directory globs = ["."]) ∧
    ((∀ g ∈ globs, dirParts g ≠ []) →
      ∃ L, (∀ g ∈ globs, L <+: dirParts g) ∧
        (∀ q, (∀ g ∈ globs, q <+: dirParts g) → q <+: L) ∧
        find_common_parent_directory globs =
          (if L.isEmpty then ["."] else [String.mk (joinSlash L)])) := by
  cases hm : globs.map dirParts with
  | nil => exact absurd (List.map_eq_nil_iff.mp hm) h
  | cons first rest =>
    have hmem : ∀ g ∈ globs, dirParts g ∈ first :: rest := by
      intro g hg
      rw [← hm]
      exact List.mem_map_of_mem dirParts hg
    have hfirst : ∃ g0 ∈ globs, dirParts g0 = first := by
      cases globs with
      | nil => exact absurd rfl h
      | cons g0 gs =>
        refine ⟨g0, List.mem_cons_self g0 gs, ?_⟩
        have : dirParts g0 :: gs.map dirParts = first :: rest := by
          simpa using hm
        exact (List.cons.injEq _ _ _ _ ▸ this).1
    have hmemrev : ∀ p ∈ first :: rest, ∃ g ∈ globs, dirParts g = p := by
      intro p hp
      rw [← hm] at hp
      obtain ⟨g, hg, hgp⟩ := List.mem_map.mp hp
      exact ⟨g, hg, hgp⟩
    constructor
    · rintro ⟨g, hg, hdg⟩
      have hany : (first :: rest).any (fun parts => parts.isEmpty) = true := by
        rw [List.any_eq_true]
        exact ⟨dirParts g, hmem g hg, by rw [hdg]; rfl⟩
      rw [fcpd_cons globs first rest hm, if_pos hany]
    · intro hall
      have hnone : ¬ ((first :: rest).any (fun parts => parts.isEmpty) = true) := by
        rw [List.any_eq_true]
        rintro ⟨p, hp, hpe⟩
        obtain ⟨g, hg, rfl⟩ := hmemrev p hp
        exact hall g hg (List.isEmpty_iff.mp (by simpa using hpe))
      refine ⟨commonPrefixLoop (first :: rest) first 0, ?_, ?_, ?_⟩
      · intro g hg
        rw [pre_iff_get]
        intro j hj
        have := commonPrefixLoop_get (first :: rest) first 0 (dirParts g) (hmem g hg) j hj
        simpa using this
      · intro q hq
        obtain ⟨g0, hg0, hdg0⟩ := hfirst
        refine commonPrefixLoop_max (first :: rest) q first 0 ?_ ?_
        · intro j hj p hp
          obtain ⟨g, hg, rfl⟩ := hmemrev p hp
          have := (pre_iff_get q (dirParts g)).mp (hq g hg) j hj
          simpa using this
        · rw [← hdg0]
          exact hq g0 hg0
      · rw [fcpd_cons globs first rest hm, if_neg hnone]

/-- C2 witness: `common_parent_spec` at the spec's two examples —
`["**/*.ts", "lib/**/*.ts"]` degrades to the root because the first pattern
starts with a wildcard, and `["src/api/**/*.ts", "src/db/**/*.ts"]` yields
the single directory `"src"`. -/
theorem common_parent_spec_witness :
    find_common_parent_directory ["**/*.ts", "lib/**/*.ts"] = ["."] ∧
    find_common_parent_directory ["src/api/**/*.ts", "src/db/**/*.ts"] = ["src"] :=
  ⟨(common_parent_spec ["**/*.ts", "lib/**/*.ts"] (by simp)).1
      ⟨"**/*.ts", by simp, rfl⟩, rfl⟩

theorem mapM_parse_mem : ∀ (globs : List String) (gl : List (List GlobToken)),
    globs.mapM (fun pattern =>
      match parseGlob pattern with
      | some g => Except.ok g
      | none => Except.error ("invalid glob pattern: " ++ pattern)) = Except.ok gl →
    ∀ ts, ts ∈ gl ↔ ∃ g ∈ globs, parseGlob g = some ts := by
  intro globs
  induction globs with
  | nil =>
    intro gl hm ts
    rw [List.mapM_nil] at hm
    rw [← Except.ok.inj hm]
    simp
  | cons g gs ih =>
    intro gl hm ts
    rw [List.mapM_cons] at hm
    cases hp : parseGlob g with
    | none =>
      rw [hp] at hm
      exact Except.noConfusion hm
    | some t =>
      rw [hp] at hm
      cases hms : gs.mapM (fun pattern =>
          match parseGlob pattern with
          | some g => Except.ok g
          | none => Except.error ("invalid glob pattern: " ++ pattern)) with
      | error e =>
        rw [hms] at hm
        exact Except.noConfusion hm
      | ok gl2 =>
        rw [hms] at hm
        have hgl : t :: gl2 = gl := Except.ok.inj hm
        rw [← hgl]
        constructor
        · intro hts
          rcases List.mem_cons.mp hts with rfl | hts2
          · exact ⟨g, List.mem_cons_self g gs, hp⟩
          · obtain ⟨g2, hg2, hpg2⟩ := (ih gl2 hms ts).mp hts2
            exact ⟨g2, List.mem_cons_of_mem g hg2, hpg2⟩
        · rintro ⟨g2, hg2, hpg2⟩
          rcases List.mem_cons.mp hg2 with rfl | hg2b
          · rw [hp] at hpg2
            exact List.mem_cons.mpr (Or.inl (Option.some.inj hpg2).symm)
          · exact List.mem_cons.mpr (Or.inr ((ih gl2 hms ts).mpr ⟨g2, hg2b, hpg2⟩))

theorem walk_body_mem (globset : List (List GlobToken)) (acc : List String)
    (file : FsFile) (d : String) :
    d ∈ (if file.isEmpty then acc
        else if ¬ file.all visitEntry then acc
        else if globset.any (fun g => tokMatch g (String.intercalate "/" file).data) then
          let parent := String.intercalate "/" file.dropLast
          if acc.contains parent then acc else acc ++ [parent]
        else acc) ↔
      d ∈ acc ∨ (file.isEmpty = false ∧ file.all visitEntry = true ∧
        globset.any (fun g => tokMatch g (String.intercalate "/" file).data) = true ∧
        d = String.intercalate "/" file.dropLast) := by
  by_cases h1 : file.isEmpty = true
  · rw [if_pos h1]
    simp [h1]
  · have h1f : file.isEmpty = false := by revert h1; cases file.isEmpty <;> simp
    rw [if_neg h1]
    by_cases h2 : file.all visitEntry = true
    · rw [if_neg (not_not_intro h2)]
      by_cases h3 : globset.any (fun g => tokMatch g (String.intercalate "/" file).data) = true
      · rw [if_pos h3]
        by_cases h4 : acc.contains (String.intercalate "/" file.dropLast) = true
        · simp only [if_pos h4]
          constructor
          · exact Or.inl
          · rintro (hd | ⟨_, _, _, rfl⟩)
            · exact hd
            · exact List.elem_iff.mp h4
        · simp only [if_neg h4]
          rw [List.mem_append, List.mem_singleton]
          constructor
          · rintro (hd | rfl)
            · exact Or.inl hd
            · exact Or.inr ⟨h1f, h2, h3, rfl⟩
          · rintro (hd | ⟨_, _, _, rfl⟩)
            · exact Or.inl hd
            · exact Or.inr rfl
      · rw [if_neg h3]
        simp [h3]
    · rw [if_pos h2]
      simp [h2]

theorem walk_fold_mem (globset : List (List GlobToken)) :
    ∀ (fs : List FsFile) (acc : List String) (d : String),
      d ∈ fs.foldl (fun dirs file =>
        if file.isEmpty then dirs
        else if ¬ file.all visitEntry then dirs
        else if globset.any (fun g => tokMatch g (String.intercalate "/" file).data) then
          let parent := String.intercalate "/" file.dropLast
          if dirs.contains parent then dirs else dirs ++ [parent]
        else dirs) acc ↔
      (d ∈ acc ∨ ∃ file ∈ fs, file.isEmpty = false ∧ file.all visitEntry = true ∧
        globset.any (fun g => tokMatch g (String.intercalate "/" file).data) = true ∧
        d = String.intercalate "/" file.dropLast) := by
  intro fs
  induction fs with
  | nil =>
    intro acc d
    simp
  | cons file fs2 ih =>
    intro acc d
    rw [List.foldl_cons, ih, walk_body_mem globset acc file d]
    constructor
    · rintro ((hd | hfile) | ⟨f, hf, hP⟩)
      · exact Or.inl hd
      · exact Or.inr ⟨file, List.mem_cons_self file fs2, hfile⟩
      · exact Or.inr ⟨f, List.mem_cons_of_mem file hf, hP⟩
    · rintro (hd | ⟨f, hf, hP⟩)
      · exact Or.inl (Or.inl hd)
      · rcases List.mem_cons.mp hf with rfl | hf2
        · exact Or.inl (Or.inr hP)
        · exact Or.inr ⟨f, hf2, hP⟩

theorem walk_fold_nodup (globset : List (List GlobToken)) :
    ∀ (fs : List FsFile) (acc : List String), acc.Nodup →
      (fs.foldl (fun dirs file =>
        if file.isEmpty then dirs
        else if ¬ file.all visitEntry then dirs
        else if globset.any (fun g => tokMatch g (String.intercalate "/" file).data) then
          let parent := String.intercalate "/" file.dropLast
          if dirs.contains parent then dirs else dirs ++ [parent]
        else dirs) acc).Nodup := by
  intro fs
  induction fs with
  | nil => intro acc h; exact h
  | cons file fs2 ih =>
    intro acc hacc
    rw [List.foldl_cons]
    apply ih
    by_cases h1 : file.isEmpty = true
    · rw [if_pos h1]; exact hacc
    · rw [if_neg h1]
      by_cases h2 : file.all visitEntry = true
      · rw [if_neg (not_not_intro h2)]
        by_cases h3 : globset.any (fun g => tokMatch g (String.intercalate "/" file).data) = true
        · rw [if_pos h3]
          by_cases h4 : acc.contains (String.intercalate "/" file.dropLast) = true
          · simp only [if_pos h4]; exact hacc
          · simp only [if_neg h4]
            rw [← List.concat_eq_append]
            exact List.Nodup.concat (fun hm => h4 (List.elem_iff.mpr hm)) hacc
        · rw [if_neg h3]; exact hacc
      · rw [if_pos h2]; exact hacc

theorem foldl_planPush_fresh (rule : Rule) :
    ∀ (ds : List String) (acc : Plan), ds.Nodup →
      (∀ d ∈ ds, ∀ e ∈ acc, e.1 ≠ d) →
      ds.foldl (fun outputs dir => planPush outputs dir rule) acc
        = acc ++ ds.map (fun d => (d, [rule])) := by
  intro ds
  induction ds with
  | nil => intro acc _ _; simp
  | cons d ds2 ih =>
    intro acc hnd hfresh
    rw [List.foldl_cons]
    have hpp : planPush acc d rule = acc ++ [(d, [rule])] := by
      unfold planPush
      have hc : ¬ (acc.any (fun e => e.1 = d) = true) := by
        rw [List.any_eq_true]
        rintro ⟨e, he, hed⟩
        exact hfresh d (List.mem_cons_self d ds2) e he (by simpa using hed)
      rw [if_neg hc]
    obtain ⟨hd2, hnd2⟩ := List.nodup_cons.mp hnd
    rw [hpp, ih (acc ++ [(d, [rule])]) hnd2 ?_]
    · rw [List.append_assoc, List.singleton_append, List.map_cons]
    · intro d2 hd2m e he
      rcases List.mem_append.mp he with hea | heb
      · exact hfresh d2 (List.mem_cons_of_mem d hd2m) e hea
      · rw [List.mem_singleton.mp heb]
        intro hded
        have hdd : d = d2 := hded
        exact hd2 (hdd ▸ hd2m)

theorem fcpd_nil (globs : List String) (hm : globs.map dirParts = []) :
    find_common_parent_directory globs = [] := by
  unfold find_common_parent_directory
  rw [hm]

theorem fcpd_nodup (gs : List String) : (find_common_parent_directory gs).Nodup := by
  cases hm : gs.map dirParts with
  | nil => rw [fcpd_nil gs hm]; exact List.nodup_nil
  | cons first rest =>
    rw [fcpd_cons gs first rest hm]
    by_cases h1 : (first :: rest).any (fun parts => parts.isEmpty) = true
    · simp [h1]
    · rw [if_neg h1]
      by_cases h2 : (commonPrefixLoop (first :: rest) first 0).isEmpty = true
      · simp [h2]
      · simp [h2]

/-- C4: the output strategy is the boolean `simplifyGlobsToParent`,
defaulting to the common-parent simplification when unspecified.  Under the
non-simplified (matched/parent) strategy the planner walks the modelled
project tree: a successful walk result is duplicate-free and holds exactly
the parent directories of the regular files that survive the
noise-directory filter and match some (parseable) pattern, and the plan maps
each such directory to the rule — one rule may land in many directories.
With the strategy unspecified, the plan instead uses
`find_common_parent_directory`. -/
theorem walk_strategy_spec (rule : Rule) (gs : List String) (ctx : BuildContext)
    (fs : List FsFile) (ds : List String)
    (hg : rule.frontmatter.globs = some gs) (hgne : gs ≠ [])
    (hsimp : rule.frontmatter.simplify_globs_to_parent.getD true = false)
    (hfm : find_matching_directories fs gs = Except.ok ds) :
    plan_outputs [rule] ctx fs = Except.ok (ds.map (fun d => (d, [rule]))) ∧
    ds.Nodup ∧
    (∀ d, d ∈ ds ↔ ∃ file ∈ fs, file.isEmpty = false ∧ file.all visitEntry = true ∧
      (∃ g ∈ gs, ∃ ts, parseGlob g = some ts ∧
        tokMatch ts (String.intercalate "/" file).data = true) ∧
      d = String.intercalate "/" file.dropLast) ∧
    (∀ (rule2 : Rule) (gs2 : List String) (ctx2 : BuildContext) (fs2 : List FsFile),
      rule2.frontmatter.globs = some gs2 → gs2 ≠ [] →
      rule2.frontmatter.simplify_globs_to_parent = none →
      plan_outputs [rule2] ctx2 fs2
        = Except.ok ((find_common_parent_directory gs2).map (fun d => (d, [rule2])))) := by
  have hge : gs.isEmpty = false := by
    cases gs with
    | nil => exact absurd rfl hgne
    | cons a as => rfl
  -- decompose the walk result
  obtain ⟨gl, hgl, hfold⟩ : ∃ gl, gs.mapM (fun pattern =>
      match parseGlob pattern with
      | some g => Except.ok g
      | none => Except.error ("invalid glob pattern: " ++ pattern)) = Except.ok gl ∧
      fs.foldl (fun dirs file =>
        if file.isEmpty then dirs
        else if ¬ file.all visitEntry then dirs
        else if gl.any (fun g => tokMatch g (String.intercalate "/" file).data) then
          let parent := String.intercalate "/" file.dropLast
          if dirs.contains parent then dirs else dirs ++ [parent]
        else dirs) [] = ds := by
    unfold find_matching_directories at hfm
    cases hmm : gs.mapM (fun pattern =>
        match parseGlob pattern with
        | some g => Except.ok g
        | none => Except.error ("invalid glob pattern: " ++ pattern)) with
    | error e => rw [hmm] at hfm; exact Except.noConfusion hfm
    | ok gl =>
      rw [hmm] at hfm
      exact ⟨gl, rfl, Except.ok.inj hfm⟩
  have hnodup : ds.Nodup := by
    rw [← hfold]
    exact walk_fold_nodup gl fs [] List.nodup_nil
  have hmem : ∀ d, d ∈ ds ↔ ∃ file ∈ fs, file.isEmpty = false ∧
      file.all visitEntry = true ∧
      (∃ g ∈ gs, ∃ ts, parseGlob g = some ts ∧
        tokMatch ts (String.intercalate "/" file).data = true) ∧
      d = String.intercalate "/" file.dropLast := by
    intro d
    rw [← hfold, walk_fold_mem gl fs [] d]
    simp only [List.not_mem_nil, false_or]
    constructor
    · rintro ⟨f, hf, h1, h2, h3, h4⟩
      refine ⟨f, hf, h1, h2, ?_, h4⟩
      obtain ⟨ts, hts, htm⟩ := List.any_eq_true.mp h3
      obtain ⟨g, hgm, hpg⟩ := (mapM_parse_mem gs gl hgl ts).mp hts
      exact ⟨g, hgm, ts, hpg, by simpa using htm⟩
    · rintro ⟨f, hf, h1, h2, ⟨g, hgm, ts, hpg, htm⟩, h4⟩
      refine ⟨f, hf, h1, h2, ?_, h4⟩
      rw [List.any_eq_true]
      exact ⟨ts, (mapM_parse_mem gs gl hgl ts).mpr ⟨g, hgm, hpg⟩, by simpa using htm⟩
  have hroot : filter_rules_for_root [rule] ctx = Except.ok [] := by
    show Except.ok (List.filter _ [rule]) = Except.ok []
    simp [List.filter, hg, hge]
  refine ⟨?_, hnodup, hmem, ?_⟩
  · unfold plan_outputs
    rw [hroot]
    show List.foldlM (planStep fs) ([] : Plan) [rule] = _
    rw [List.foldlM_cons, planStep_walk_ok fs [] rule gs ds hg hge hsimp hfm,
      foldl_planPush_fresh rule ds [] hnodup
        (fun d _ e he => absurd he (List.not_mem_nil e))]
    rfl
  · intro rule2 gs2 ctx2 fs2 hg2 hgne2 hnone2
    have hge2 : gs2.isEmpty = false := by
      cases gs2 with
      | nil => exact absurd rfl hgne2
      | cons a as => rfl
    have hroot2 : filter_rules_for_root [rule2] ctx2 = Except.ok [] := by
      show Except.ok (List.filter _ [rule2]) = Except.ok []
      simp [List.filter, hg2, hge2]
    unfold plan_outputs
    rw [hroot2]
    show List.foldlM (planStep fs2) ([] : Plan) [rule2] = _
    rw [List.foldlM_cons,
      planStep_simplify fs2 [] rule2 gs2 hg2 hge2 (by rw [hnone2]; rfl),
      foldl_planPush_fresh rule2 (find_common_parent_directory gs2) []
        (fcpd_nodup gs2) (fun d _ e he => absurd he (List.not_mem_nil e))]
    rfl

/-- C4 witness: `walk_strategy_spec` at a Rust-scoped non-simplified rule
over a three-file tree — only `src/main.rs` both survives the noise filter
(`.git` is skipped) and matches `**/*.rs`, so the rule lands exactly in
`src`. -/
theorem walk_strategy_spec_witness :
    plan_outputs [ruleRsNoSimplify] ctxEmpty
        [["src", "main.rs"], [".git", "x.rs"], ["README.md"]]
      = Except.ok [("src", [ruleRsNoSimplify])] :=
  (walk_strategy_spec ruleRsNoSimplify ["**/*.rs"] ctxEmpty
    [["src", "main.rs"], [".git", "x.rs"], ["README.md"]] ["src"]
    rfl (by simp) rfl rfl).1

end Cagents
